import Mathlib

/-!
Shallow embedding of the `mylib` crate's core: the trivial `usize` hasher
(`src/safe/int.rs`, module `hash`), the strongly-typed index wrapper and its
generated collections (the `wrap_usize!` macro, instantiated at the `VarIndex`
domain exactly as the crate's own `safe::int::examples` module does), and the
`ChainOne` iterator adapter (`src/coll.rs`).

Modelling conventions: the 64-bit platform configuration is embedded
(`target_pointer_width = "64"`, so `consts::usize_bytes = 8`); `usize` values
are naturals, with reduction modulo `2 ^ 64` written explicitly where a claim
is about overflow; bytes are naturals below 256; code that can panic is
embedded as an `Option`-returning function where `none` is the panic; iterators
are embedded as a state type plus a `next` step function returning
`Option (item × state)`, run by a generic fuelled collector `iterate`.
-/

namespace Mylib

/-- From `consts::usize_bytes` (64-bit variant): number of bytes in a `usize`. -/
def usize_bytes : Nat := 8

/-- Number of distinct `usize` values on the modelled platform: `2 ^ 64`. -/
def USIZE : Nat := 2 ^ (8 * usize_bytes)

/-! ## The `hash` module: `BuildHashUsize` and `HashUsize` -/

/-- State of `HashUsize`: the byte buffer `buf: [u8; usize_bytes]`,
bytes modelled as naturals below 256. -/
structure HashUsize where
  buf : List Nat

/-- From `BuildHashUsize::build_hasher`: `HashUsize { buf: [0; usize_bytes] }`. -/
def BuildHashUsize.build_hasher : HashUsize :=
  ⟨List.replicate usize_bytes 0⟩

/-- From `HashUsize::test_bytes`, the `cfg(debug)` (developer build) variant:
the check passes (`true`, no panic) iff the slice has exactly `usize_bytes`
bytes. The `cfg(not(debug))` variant is a no-op and appears only inside
`HashUsize.writeRelease`. -/
def HashUsize.test_bytes (bytes : List Nat) : Bool :=
  bytes.length == usize_bytes

/-- From `HashUsize::write` as compiled in a developer (`cfg(debug)`) build:
`test_bytes` panics (`none`) when the slice length differs from `usize_bytes`;
otherwise the loop `for n in 0..usize_bytes { buf[n] = bytes[n] }` copies the
first `usize_bytes` bytes of the slice into the buffer, overwriting it. -/
def HashUsize.writeDebug (_self : HashUsize) (bytes : List Nat) : Option HashUsize :=
  if HashUsize.test_bytes bytes then some ⟨bytes.take usize_bytes⟩ else none

/-- From `HashUsize::write` as compiled in an optimized (`cfg(not(debug))`)
build: `test_bytes` is a no-op, and the copy loop reads `bytes[n]` for every
`n < usize_bytes`, which panics (`none`) only when the slice is shorter than
`usize_bytes`; extra trailing bytes are silently ignored. -/
def HashUsize.writeRelease (_self : HashUsize) (bytes : List Nat) : Option HashUsize :=
  if usize_bytes ≤ bytes.length then some ⟨bytes.take usize_bytes⟩ else none

/-- Little-endian byte decomposition of a natural over `w` bytes: the
byte representation of a `usize` value on the (little-endian) modelled
platform, i.e. the slice passed to `write` when hashing a `usize`. -/
def toLeBytes : Nat → Nat → List Nat
  | 0, _ => []
  | w + 1, n => n % 256 :: toLeBytes w (n / 256)

/-- Little-endian recomposition of a byte buffer into a natural: the
`transmute::<[u8; usize_bytes], u64>` reinterpretation used by
`HashUsize::finish` on the little-endian modelled platform. -/
def fromLeBytes : List Nat → Nat
  | [] => 0
  | b :: rest => b + 256 * fromLeBytes rest

/-- From `HashUsize::finish` (the `target_pointer_width = "64"` variant):
reinterprets the stored buffer as an unsigned 64-bit integer. -/
def HashUsize.finish (h : HashUsize) : Nat :=
  fromLeBytes h.buf

/-! ## The `wrap_usize!` entry point: the wrapper struct, instantiated at
the `VarIndex` domain of `safe::int::examples` -/

/-- The wrapper struct generated by the `wrap_usize!` entry point,
instantiated at the `VarIndex` domain: `pub struct VarIndex { val: usize }`. -/
structure VarIndex where
  val : Nat
deriving DecidableEq

/-- From the generated `$t::new`: wraps a raw `usize`. -/
def VarIndex.new (val : Nat) : VarIndex :=
  ⟨val⟩

/-- From the generated `$t::zero`. -/
def VarIndex.zero : VarIndex :=
  ⟨0⟩

/-- From the generated `$t::one`. -/
def VarIndex.one : VarIndex :=
  ⟨1⟩

/-- From the generated `$t::get`: the raw wrapped `usize`. -/
def VarIndex.get (i : VarIndex) : Nat :=
  i.val

/-- From the generated `impl From<usize> for $t`: calls `$t::new`. -/
def VarIndex.fromUsize (val : Nat) : VarIndex :=
  VarIndex.new val

/-- From the generated `impl Into<usize> for $t`: returns `self.val`. -/
def VarIndex.intoUsize (i : VarIndex) : Nat :=
  i.val

/-- From the generated `$t::inc`: `self.val += 1`. Modelled as exact
increment: every use the claims exercise keeps the value bounded by a vector
length or a range's upper bound, both `usize` values, so the increment cannot
overflow there. -/
def VarIndex.inc (i : VarIndex) : VarIndex :=
  ⟨i.val + 1⟩

/-- From the generated `impl Add<T: Into<usize>> for $t` and
`impl AddAssign<T: Into<usize>> for $t`, whose bodies are both
`self.val += rhs.into()`: `usize` addition, which wraps at the machine width
in optimized builds, hence the explicit reduction modulo `USIZE`. -/
def VarIndex.add (i : VarIndex) (rhs : Nat) : VarIndex :=
  ⟨(i.val + rhs) % USIZE⟩

/-! ## Claims about the hasher and the wrapper -/

/-- Claim C1: in developer (`cfg(debug)`) builds, `HashUsize::write` panics
exactly on byte slices whose length differs from `usize_bytes` and accepts
every slice of length exactly `usize_bytes`; in optimized builds the width
check is removed (`writeRelease` accepts any slice of length at least
`usize_bytes`, in particular over-long slices the debug build rejects). -/
theorem C1_write_debug_width_check (h : HashUsize) (bytes : List Nat) :
    ((h.writeDebug bytes).isSome ↔ bytes.length = usize_bytes) ∧
    ((h.writeRelease bytes).isSome ↔ usize_bytes ≤ bytes.length) := by
  constructor
  · by_cases hb : bytes.length = usize_bytes <;>
      simp [HashUsize.writeDebug, HashUsize.test_bytes, hb]
  · by_cases hb : usize_bytes ≤ bytes.length <;>
      simp [HashUsize.writeRelease, hb]

/-- Recomposing the little-endian decomposition of `n` over `w` bytes gives
`n` back modulo `256 ^ w`. -/
theorem fromLeBytes_toLeBytes (w : Nat) : ∀ n : Nat,
    fromLeBytes (toLeBytes w n) = n % 256 ^ w := by
  induction w with
  | zero => intro n; simp [toLeBytes, fromLeBytes, Nat.mod_one]
  | succ w ih =>
    intro n
    rw [toLeBytes, fromLeBytes, ih (n / 256), pow_succ']
    exact (Nat.mod_mul).symm

/-- The decomposition of a `usize` over `w` bytes has exactly `w` bytes. -/
theorem toLeBytes_length (w : Nat) : ∀ n : Nat, (toLeBytes w n).length = w := by
  induction w with
  | zero => intro n; simp [toLeBytes]
  | succ w ih => intro n; simp [toLeBytes, ih]

/-- The modulus `256 ^ usize_bytes` of the byte decomposition is exactly the
number of `usize` values. -/
theorem USIZE_eq_pow : USIZE = 256 ^ usize_bytes := by
  norm_num [USIZE, usize_bytes]

/-- Claim C2: for every `usize` value `n` and any prior hasher state, writing
exactly the `usize_bytes` native-endian bytes of `n` and then calling `finish`
returns `n` itself: the bytes are stored verbatim (overwriting the previous
state) and `finish` reinterprets them as the unsigned integer. -/
theorem C2_identity_hash (h0 : HashUsize) (n : Nat) (hn : n < USIZE) :
    (h0.writeDebug (toLeBytes usize_bytes n)).map HashUsize.finish = some n := by
  have hlen : (toLeBytes usize_bytes n).length = usize_bytes := toLeBytes_length _ n
  have htake : (toLeBytes usize_bytes n).take usize_bytes = toLeBytes usize_bytes n := by
    apply List.take_of_length_le
    exact le_of_eq hlen
  have hw : h0.writeDebug (toLeBytes usize_bytes n) =
      some ⟨toLeBytes usize_bytes n⟩ := by
    simp [HashUsize.writeDebug, HashUsize.test_bytes, hlen, htake]
  rw [hw]
  have hfin : HashUsize.finish ⟨toLeBytes usize_bytes n⟩ = n := by
    show fromLeBytes (toLeBytes usize_bytes n) = n
    rw [fromLeBytes_toLeBytes usize_bytes n, ← USIZE_eq_pow]
    exact Nat.mod_eq_of_lt hn
  simp [hfin]

/-- Witness for C2 at the concrete value `12345` from a fresh hasher. -/
theorem C2_identity_hash_witness :
    12345 < USIZE ∧
    (BuildHashUsize.build_hasher.writeDebug
      (toLeBytes usize_bytes 12345)).map HashUsize.finish = some 12345 :=
  ⟨by norm_num [USIZE, usize_bytes],
   C2_identity_hash BuildHashUsize.build_hasher 12345 (by norm_num [USIZE, usize_bytes])⟩

/-- Claim C8: for every raw `usize` `n`, constructing an index from the raw
integer and reading it back returns the same integer: `$t::new(n).get() == n`,
and the `From<usize>` / `Into<usize>` conversions round-trip the same way. -/
theorem C8_from_raw_round_trip (n : Nat) :
    (VarIndex.new n).get = n ∧ (VarIndex.fromUsize n).intoUsize = n :=
  ⟨rfl, rfl⟩

/-- Claim C10: for every index `v` and every `usize` `n` such that
`v.get() + n` does not overflow the machine width, `(v + n).get()` equals
`v.get() + n` (and `AddAssign` computes the same function `VarIndex.add`,
staying in the same domain type). -/
theorem C10_add_exact (v : VarIndex) (n : Nat) (h : v.get + n < USIZE) :
    (v.add n).get = v.get + n := by
  simp only [VarIndex.add, VarIndex.get] at *
  exact Nat.mod_eq_of_lt h

/-- Witness for C10 at `v = VarIndex.new 5`, `n = 3`. -/
theorem C10_add_exact_witness :
    (VarIndex.new 5).get + 3 < USIZE ∧
    ((VarIndex.new 5).add 3).get = (VarIndex.new 5).get + 3 :=
  ⟨by norm_num [USIZE, usize_bytes, VarIndex.get, VarIndex.new],
   C10_add_exact (VarIndex.new 5) 3
     (by norm_num [USIZE, usize_bytes, VarIndex.get, VarIndex.new])⟩

/-! ## Generic iterator runner -/

/-- Runs an iterator embedded as a step function: applies the step to the
state for at most `fuel` steps, collecting the yielded items in order.
Each Rust `Iterator::next` call is one application of the step function. -/
def iterate {S A : Type} (step : S → Option (A × S)) : Nat → S → List A
  | 0, _ => []
  | fuel + 1, s =>
    match step s with
    | none => []
    | some (a, s') => a :: iterate step fuel s'

/-- One fuelled call to `next` that yields an item. -/
theorem iterate_step_some {S A : Type} (step : S → Option (A × S)) (fuel : Nat)
    (s s' : S) (a : A) (h : step s = some (a, s')) :
    iterate step (fuel + 1) s = a :: iterate step fuel s' := by
  show (match step s with
    | none => []
    | some (a, s') => a :: iterate step fuel s') = a :: iterate step fuel s'
  rw [h]

/-- One fuelled call to `next` that signals exhaustion. -/
theorem iterate_step_none {S A : Type} (step : S → Option (A × S)) (fuel : Nat)
    (s : S) (h : step s = none) :
    iterate step (fuel + 1) s = [] := by
  show (match step s with
    | none => []
    | some (a, s') => a :: iterate step fuel s') = []
  rw [h]

/-! ## The `ChainOne` adapter of `src/coll.rs` -/

/-- From `struct ChainOne<Elem, I>` in `src/coll.rs`: the underlying iterator
(embedded as the list of its remaining elements) and the trailing element. -/
structure ChainOne (Elem : Type) where
  iter : List Elem
  and_then : Option Elem

/-- From `impl Iterator for ChainOne`, method `next`: yield the underlying
iterator's next element when there is one; otherwise swap `and_then` out
(leaving `None` behind) and yield whatever it held. -/
def ChainOne.next {Elem : Type} (c : ChainOne Elem) : Option (Elem × ChainOne Elem) :=
  match c.iter with
  | a :: rest => some (a, ⟨rest, c.and_then⟩)
  | [] =>
    match c.and_then with
    | some e => some (e, ⟨[], none⟩)
    | none => none

/-- From `ChainOneExt::chain_one`: `ChainOne { iter: self, and_then: Some(elem) }`. -/
def chain_one {Elem : Type} (iter : List Elem) (elem : Elem) : ChainOne Elem :=
  ⟨iter, some elem⟩

/-- A fully drained `ChainOne` yields nothing, however often `next` is called. -/
theorem chainOne_drained (Elem : Type) (k : Nat) :
    iterate ChainOne.next k (⟨[], none⟩ : ChainOne Elem) = [] := by
  cases k with
  | zero => rfl
  | succ k => rfl

/-- Claim C9: for every iterator producing the elements `xs` and every
element `e`, the `chain_one` adapter yields exactly `xs` in order followed by
`e`, and every further `next` call returns `None` (running with any surplus
fuel `k` produces nothing beyond `xs ++ [e]`). -/
theorem C9_chain_one_appends (Elem : Type) (xs : List Elem) (e : Elem) (k : Nat) :
    iterate ChainOne.next (xs.length + 1 + k) (chain_one xs e) = xs ++ [e] := by
  induction xs with
  | nil =>
    have h1 : ([] : List Elem).length + 1 + k = k + 1 := by simp; omega
    rw [h1]
    have h2 := chainOne_drained Elem k
    simp [chain_one, iterate, ChainOne.next, h2]
  | cons a t ih =>
    have h1 : (a :: t).length + 1 + k = (t.length + 1 + k) + 1 := by
      simp [List.length_cons]; omega
    rw [h1]
    simp only [chain_one, iterate, ChainOne.next]
    simpa using ih

/-! ## The generated range (`range:` arm of `wrap_usize!`), instantiated
at `VarRange` -/

/-- The range struct generated by the `range:` arm of `wrap_usize!`,
instantiated at `VarRange`: a `start` (inclusive) and `end` (exclusive)
bound. The source field named `end` is called `stop` here, `end` being a
Lean keyword. -/
structure VarRange where
  start : VarIndex
  stop : VarIndex

/-- From the generated `$range::new`, with the `Into<$t>` conversions applied
to raw `usize` bounds. -/
def VarRange.new (start stop : Nat) : VarRange :=
  ⟨VarIndex.new start, VarIndex.new stop⟩

/-- From the generated `$range::zero_to`. -/
def VarRange.zero_to (stop : Nat) : VarRange :=
  ⟨VarIndex.new 0, VarIndex.new stop⟩

/-- From the generated `impl Iterator for $range`, method `next`: `None` once
`start >= end` (the derived ordering compares the raw values); otherwise yield
the current `start` and advance it by one (`self.start.val += 1`). -/
def VarRange.next (r : VarRange) : Option (VarIndex × VarRange) :=
  if r.start.get ≥ r.stop.get then none
  else some (r.start, ⟨r.start.inc, r.stop⟩)

/-- Reading back a freshly wrapped raw value. -/
theorem VarIndex.get_new (n : Nat) : (VarIndex.new n).get = n := rfl

/-- Incrementing a freshly wrapped raw value. -/
theorem VarIndex.inc_new (n : Nat) : (VarIndex.new n).inc = VarIndex.new (n + 1) := rfl

/-- Running the generated range for `(e - s) + k` steps from bounds `s`, `e`
yields exactly the wrapped values of `List.range' s (e - s)`. -/
theorem range_iterate (n : Nat) : ∀ s e k : Nat, e - s = n →
    iterate VarRange.next (n + k) (VarRange.new s e) =
      (List.range' s n).map VarIndex.new := by
  induction n with
  | zero =>
    intro s e k h0
    have hse : e ≤ s := by omega
    cases k with
    | zero => rfl
    | succ k =>
      simp [iterate, VarRange.next, VarRange.new, VarIndex.get_new, hse]
  | succ n ih =>
    intro s e k h
    have hf : (n + 1) + k = (n + k) + 1 := by omega
    have hs : s < e := by omega
    have hguard : VarRange.next (VarRange.new s e) =
        some (VarIndex.new s, ⟨VarIndex.new (s + 1), VarIndex.new e⟩) := by
      rw [VarRange.next, if_neg]
      · rfl
      · simp only [VarRange.new, VarIndex.get_new, ge_iff_le, Nat.not_le]
        omega
    rw [hf, iterate_step_some VarRange.next (n + k) _ _ _ hguard,
      List.range'_succ, List.map_cons]
    congr 1
    exact ih (s + 1) e k (by omega)

/-- Claim C5: with `start < end`, iterating the generated range yields exactly
`end - start` values, strictly increasing in raw value, the first being
`start` and the last being `end - 1`, and every yielded value stays strictly
below `end`; with `start >= end` the very first `next` already returns `None`,
so iteration (with any fuel `k`) yields nothing. -/
theorem C5_range_yields_halfopen (s e k : Nat) :
    (s < e →
      (iterate VarRange.next (e - s) (VarRange.new s e)).length = e - s ∧
      List.Pairwise (fun a b => a.get < b.get)
        (iterate VarRange.next (e - s) (VarRange.new s e)) ∧
      (iterate VarRange.next (e - s) (VarRange.new s e)).head? =
        some (VarIndex.new s) ∧
      (iterate VarRange.next (e - s) (VarRange.new s e)).getLast? =
        some (VarIndex.new (e - 1)) ∧
      ∀ x ∈ iterate VarRange.next (e - s) (VarRange.new s e), x.get < e) ∧
    (e ≤ s → iterate VarRange.next k (VarRange.new s e) = []) := by
  constructor
  · intro hs
    have hmain : iterate VarRange.next (e - s) (VarRange.new s e) =
        (List.range' s (e - s)).map VarIndex.new := by
      have := range_iterate (e - s) s e 0 rfl
      simpa using this
    rw [hmain]
    have hn : e - s = (e - s - 1) + 1 := by omega
    refine ⟨by simp, ?_, ?_, ?_, ?_⟩
    · rw [List.pairwise_map]
      simpa [VarIndex.get_new] using List.pairwise_lt_range' s (e - s) 1
    · rw [List.head?_map, hn, List.range'_succ]
      rfl
    · rw [List.getLast?_map, hn, List.range'_concat, List.getLast?_concat]
      show some (VarIndex.new (s + 1 * (e - s - 1))) = some (VarIndex.new (e - 1))
      congr 2
      omega
    · intro x hx
      rcases List.mem_map.mp hx with ⟨i, hi, rfl⟩
      rcases List.mem_range'.mp hi with ⟨j, hj, rfl⟩
      simp [VarIndex.get_new]
      omega
  · intro hse
    cases k with
    | zero => rfl
    | succ k =>
      simp [iterate, VarRange.next, VarRange.new, VarIndex.get_new, hse]

/-- Witness for C5 at the bounds `start = 2`, `end = 5`. -/
theorem C5_range_yields_halfopen_witness :
    (2 : Nat) < 5 ∧
    (iterate VarRange.next (5 - 2) (VarRange.new 2 5)).head? =
      some (VarIndex.new 2) :=
  ⟨by decide, ((C5_range_yields_halfopen 2 5 0).1 (by decide)).2.2.1⟩

/-! ## The generated vector map (`map:` arm of `wrap_usize!`), instantiated
at `VarMap` with iterator `VarMapIter` -/

/-- Slice indexing `vec[i]` as used by the generated `Index`/`IndexMut`
impls: the element at position `i`, or a panic (`none`) when `i` is out of
bounds. -/
def listIndex {T : Type} : List T → Nat → Option T
  | [], _ => none
  | a :: _, 0 => some a
  | _ :: rest, n + 1 => listIndex rest n

/-- The vector map generated by the `map:` arm of `wrap_usize!`, instantiated
at `VarMap`: a wrapper around `Vec<T>`, the vector embedded as the list of
its elements. -/
structure VarMap (T : Type) where
  vec : List T

/-- From the generated `$map::of`: wraps an existing vector. -/
def VarMap.of {T : Type} (vec : List T) : VarMap T :=
  ⟨vec⟩

/-- From the generated `$map::new`: the empty map. -/
def VarMap.new {T : Type} : VarMap T :=
  ⟨[]⟩

/-- From the generated `$map::len`: `self.vec.len()`. -/
def VarMap.len {T : Type} (m : VarMap T) : Nat :=
  m.vec.length

/-- From the generated `$map::next_index`: `self.len().into()`. -/
def VarMap.next_index {T : Type} (m : VarMap T) : VarIndex :=
  VarIndex.new m.len

/-- From the generated `$map::push`: `self.vec.push(elem)`. -/
def VarMap.push {T : Type} (m : VarMap T) (elem : T) : VarMap T :=
  ⟨m.vec ++ [elem]⟩

/-- From the generated `$map::pop`: `self.vec.pop()`, which removes and
returns the last element; the updated map is returned alongside. -/
def VarMap.pop {T : Type} (m : VarMap T) : Option (T × VarMap T) :=
  match m.vec.getLast? with
  | none => none
  | some x => some (x, ⟨m.vec.dropLast⟩)

/-- From the generated `impl Index<$t> for $map<T>`: `&self.vec[index.get()]`,
which panics (`none`) when the position is out of bounds. -/
def VarMap.index {T : Type} (m : VarMap T) (index : VarIndex) : Option T :=
  listIndex m.vec index.get

/-- From the generated `$map::swap_remove`: `self.vec.swap_remove(*idx)`,
i.e. `Vec::swap_remove`, which panics (`none`) out of bounds and otherwise
returns the element at the position after moving the last element into its
slot and shortening the vector by one. -/
def VarMap.swap_remove {T : Type} (m : VarMap T) (idx : VarIndex) :
    Option (T × VarMap T) :=
  if h : idx.get < m.vec.length then
    some (m.vec.get ⟨idx.get, h⟩,
      ⟨(m.vec.set idx.get
          (m.vec.get ⟨m.vec.length - 1,
            Nat.sub_lt (Nat.lt_of_le_of_lt (Nat.zero_le idx.get) h)
              Nat.one_pos⟩)).dropLast⟩)
  else none

/-- Folds `$map::push` over a whole sequence of elements, modelling a series
of push calls. -/
def VarMap.pushAll {T : Type} (m : VarMap T) (xs : List T) : VarMap T :=
  xs.foldl VarMap.push m

/-- State of the generated index iterator `$iter`, instantiated at
`VarMapIter`: a cursor plus the map walked or drained. The borrowing flavour
(`$iter<&$map<T>>`) steps with `next_ref`; the consuming flavour
(`$iter<$map<T>>`) steps with `next_own`. -/
structure VarMapIter (T : Type) where
  cursor : VarIndex
  map : VarMap T

/-- From the generated `$iter::mk_ref`: cursor at zero over the borrowed map. -/
def VarMapIter.mk_ref {T : Type} (map : VarMap T) : VarMapIter T :=
  ⟨VarIndex.zero, map⟩

/-- From the generated `impl Iterator for $iter<&$map<T>>`, method `next`:
`None` once the cursor has reached `len()` (`self.cursor >= self.map.len()`);
otherwise yield the cursor paired with the element under it
(`&self.map[self.cursor]`, in bounds thanks to the guard) and increment the
cursor. The source's guard is written here with the branches swapped so the
in-bounds fact is available to the element access. -/
def VarMapIter.next_ref {T : Type} (it : VarMapIter T) :
    Option ((VarIndex × T) × VarMapIter T) :=
  if h : it.cursor.get < it.map.len then
    some ((it.cursor, it.map.vec.get ⟨it.cursor.get, h⟩),
      ⟨it.cursor.inc, it.map⟩)
  else none

/-- From the generated `$iter::new`: reverses the backing vector
(`map.vec.reverse()`) and starts the cursor at zero. -/
def VarMapIter.new {T : Type} (map : VarMap T) : VarMapIter T :=
  ⟨VarIndex.zero, ⟨map.vec.reverse⟩⟩

/-- From the generated `impl Iterator for $iter<$map<T>>`, method `next`:
pop from the back of the (reversed) backing vector, pair the popped element
with the cursor, and increment the cursor. -/
def VarMapIter.next_own {T : Type} (it : VarMapIter T) :
    Option ((VarIndex × T) × VarMapIter T) :=
  match it.map.pop with
  | some p => some ((it.cursor, p.1), ⟨it.cursor.inc, p.2⟩)
  | none => none

/-- From the generated `$map::index_iter`: `$iter::mk_ref(self)`. -/
def VarMap.index_iter {T : Type} (m : VarMap T) : VarMapIter T :=
  VarMapIter.mk_ref m

/-- From the generated `$map::into_index_iter`: `$iter::new(self)`. -/
def VarMap.into_index_iter {T : Type} (m : VarMap T) : VarMapIter T :=
  VarMapIter.new m

/-! ## Claims about the vector map -/

/-- The embedded slice indexing agrees with optional list lookup. -/
theorem listIndex_eq_getElem? {T : Type} :
    ∀ (l : List T) (n : Nat), listIndex l n = l[n]? := by
  intro l
  induction l with
  | nil => intro n; simp [listIndex]
  | cons a t ih =>
    intro n
    cases n with
    | zero => simp [listIndex]
    | succ n => simpa [listIndex] using ih n

/-- Claim C7: indexed access through the generated `Index` impl panics
exactly when the raw index reaches `len()`, and otherwise returns the element
stored at that position; out-of-bounds access is never clamped to a valid
position. -/
theorem C7_index_oob_is_fatal (T : Type) (m : VarMap T) (i : VarIndex) :
    (m.index i = none ↔ m.len ≤ i.get) ∧
    ∀ h : i.get < m.len, m.index i = some (m.vec.get ⟨i.get, h⟩) := by
  constructor
  · rw [VarMap.index, listIndex_eq_getElem?]
    exact List.getElem?_eq_none_iff
  · intro h
    rw [VarMap.index, listIndex_eq_getElem?, List.get_eq_getElem]
    exact List.getElem?_eq_getElem h

/-- Witness for C7: in-bounds access at raw position 1 of a two-element map. -/
theorem C7_index_oob_is_fatal_witness :
    (VarMap.of [5, 7]).index (VarIndex.new 1) = some 7 :=
  (C7_index_oob_is_fatal Nat (VarMap.of [5, 7]) (VarIndex.new 1)).2 (by decide)

/-- Claim C4: for an in-bounds index `i`, `swap_remove(i)` succeeds, returns
the element previously stored at `i`, shrinks `len()` by exactly one, moves
the value formerly at the last position into slot `i` (when `i` was not the
last position), and leaves every other surviving position unchanged. -/
theorem C4_swap_remove_spec (T : Type) (m : VarMap T) (i : VarIndex)
    (h : i.get < m.len) :
    ∃ x m', m.swap_remove i = some (x, m') ∧
      m.vec[i.get]? = some x ∧
      m'.len = m.len - 1 ∧
      (i.get < m.len - 1 → m'.vec[i.get]? = m.vec[m.len - 1]?) ∧
      (∀ j, j < m.len - 1 → j ≠ i.get → m'.vec[j]? = m.vec[j]?) := by
  simp only [VarMap.len] at h ⊢
  have hlast : m.vec.length - 1 < m.vec.length :=
    Nat.sub_lt (Nat.lt_of_le_of_lt (Nat.zero_le i.get) h) Nat.one_pos
  refine ⟨m.vec.get ⟨i.get, h⟩,
    ⟨(m.vec.set i.get (m.vec.get ⟨m.vec.length - 1, hlast⟩)).dropLast⟩,
    ?_, ?_, ?_, ?_, ?_⟩
  · rw [VarMap.swap_remove, dif_pos h]
  · rw [List.get_eq_getElem]
    exact List.getElem?_eq_getElem h
  · simp [List.length_dropLast, List.length_set]
  · intro hi
    have hd : i.get <
        ((m.vec.set i.get (m.vec.get ⟨m.vec.length - 1, hlast⟩)).dropLast).length := by
      simp only [List.length_dropLast, List.length_set]
      omega
    rw [List.getElem?_eq_getElem hd, List.getElem?_eq_getElem hlast]
    congr 1
    rw [List.getElem_dropLast, List.getElem_set]
    simp [List.get_eq_getElem]
  · intro j hj hne
    have hd : j <
        ((m.vec.set i.get (m.vec.get ⟨m.vec.length - 1, hlast⟩)).dropLast).length := by
      simp only [List.length_dropLast, List.length_set]
      omega
    have hj' : j < m.vec.length := by omega
    rw [List.getElem?_eq_getElem hd, List.getElem?_eq_getElem hj']
    congr 1
    rw [List.getElem_dropLast, List.getElem_set]
    simp [Ne.symm hne]

/-- Witness for C4 at the map `[10, 20, 30]` and index 0. -/
theorem C4_swap_remove_spec_witness :
    ∃ x m', (VarMap.of [10, 20, 30]).swap_remove (VarIndex.new 0) = some (x, m') ∧
      (VarMap.of [10, 20, 30]).vec[(VarIndex.new 0).get]? = some x ∧
      m'.len = (VarMap.of [10, 20, 30]).len - 1 ∧
      ((VarIndex.new 0).get < (VarMap.of [10, 20, 30]).len - 1 →
        m'.vec[(VarIndex.new 0).get]? =
          (VarMap.of [10, 20, 30]).vec[(VarMap.of [10, 20, 30]).len - 1]?) ∧
      (∀ j, j < (VarMap.of [10, 20, 30]).len - 1 → j ≠ (VarIndex.new 0).get →
        m'.vec[j]? = (VarMap.of [10, 20, 30]).vec[j]?) :=
  C4_swap_remove_spec Nat (VarMap.of [10, 20, 30]) (VarIndex.new 0) (by decide)

/-- Pushing a sequence of elements appends it to the backing vector. -/
theorem pushAll_vec {T : Type} :
    ∀ (xs : List T) (m : VarMap T), (m.pushAll xs).vec = m.vec ++ xs := by
  intro xs
  induction xs with
  | nil => intro m; simp [VarMap.pushAll]
  | cons a t ih =>
    intro m
    show ((m.push a).pushAll t).vec = m.vec ++ a :: t
    rw [ih (m.push a)]
    simp [VarMap.push]

/-- Claim C6: pushing the elements of `xs` onto the empty map one by one,
`next_index()` observed just before the `j`-th push equals `j`, the pushed
element is then retrievable at index `j`, `next_index()` is always `len()`
reinterpreted as the index type (by definition of `next_index`), and after
all `xs.length` pushes the length is `xs.length`. -/
theorem C6_push_next_index (T : Type) (xs : List T) (j : Nat)
    (hj : j < xs.length) :
    ((VarMap.new.pushAll (xs.take j)).next_index).get = j ∧
    ((VarMap.new.pushAll (xs.take j)).push (xs.get ⟨j, hj⟩)).index
        (VarIndex.new j) = some (xs.get ⟨j, hj⟩) ∧
    ((VarMap.new : VarMap T).pushAll xs).len = xs.length := by
  have hvec : ((VarMap.new : VarMap T).pushAll (xs.take j)).vec = xs.take j := by
    rw [pushAll_vec]
    rfl
  have hlen : ((VarMap.new : VarMap T).pushAll (xs.take j)).len = j := by
    rw [VarMap.len, hvec]
    simp [List.length_take]
    omega
  refine ⟨?_, ?_, ?_⟩
  · rw [VarMap.next_index, hlen, VarIndex.get_new]
  · rw [VarMap.index, VarMap.push, hvec, VarIndex.get_new,
      listIndex_eq_getElem?]
    have hjl : (xs.take j).length = j := by simp [List.length_take]; omega
    have hconc := List.getElem?_concat_length (xs.take j) (xs.get ⟨j, hj⟩)
    rw [hjl] at hconc
    exact hconc
  · rw [VarMap.len, pushAll_vec]
    rfl

/-- Witness for C6 at `xs = [4, 5, 6]`, `j = 1`. -/
theorem C6_push_next_index_witness :
    ((VarMap.new.pushAll (([4, 5, 6] : List Nat).take 1)).next_index).get = 1 :=
  (C6_push_next_index Nat [4, 5, 6] 1 (by decide)).1

/-- Draining the reversed vector from the back while counting the cursor up
from `c` re-emits the original elements in order, paired with ascending
indices: the reverse-then-drain loop is ascending enumeration. -/
theorem into_iterate (T : Type) :
    ∀ (l : List T) (c k : Nat),
      iterate VarMapIter.next_own (l.length + k)
          ⟨VarIndex.new c, ⟨l.reverse⟩⟩ =
        (l.enumFrom c).map (fun p => (VarIndex.new p.1, p.2)) := by
  intro l
  induction l with
  | nil =>
    intro c k
    cases k with
    | zero => rfl
    | succ k => exact iterate_step_none _ _ _ rfl
  | cons a t ih =>
    intro c k
    have hlen : (a :: t).length + k = (t.length + k) + 1 := by
      simp [List.length_cons]
      omega
    rw [hlen]
    have hstep : VarMapIter.next_own
        (⟨VarIndex.new c, ⟨(a :: t).reverse⟩⟩ : VarMapIter T) =
        some ((VarIndex.new c, a), ⟨VarIndex.new (c + 1), ⟨t.reverse⟩⟩) := by
      simp [VarMapIter.next_own, VarMap.pop, List.reverse_cons,
        List.getLast?_concat, List.dropLast_concat, VarIndex.inc_new]
    rw [iterate_step_some _ _ _ _ _ hstep, List.enumFrom_cons, List.map_cons]
    congr 1
    exact ih (c + 1) k

/-- Walking the borrowed map with a cursor starting at `c` yields the
elements from position `c` on, paired with ascending indices. -/
theorem ref_iterate (T : Type) (l : List T) :
    ∀ (n c k : Nat), c + n = l.length →
      iterate VarMapIter.next_ref (n + k) ⟨VarIndex.new c, ⟨l⟩⟩ =
        ((l.drop c).enumFrom c).map (fun p => (VarIndex.new p.1, p.2)) := by
  intro n
  induction n with
  | zero =>
    intro c k hc
    have hnc : ¬ (c < l.length) := by omega
    have hstep : VarMapIter.next_ref (⟨VarIndex.new c, ⟨l⟩⟩ : VarMapIter T) =
        none := by
      simp [VarMapIter.next_ref, VarMap.len, VarIndex.get_new, hnc]
    have hdrop : l.drop c = [] := List.drop_eq_nil_of_le (by omega)
    cases k with
    | zero => rw [hdrop]; rfl
    | succ k =>
      have hf0 : 0 + (k + 1) = k + 1 := by omega
      rw [hf0, iterate_step_none _ _ _ hstep, hdrop]
      rfl
  | succ n ih =>
    intro c k hc
    have hcl : c < l.length := by omega
    have hf : (n + 1) + k = (n + k) + 1 := by omega
    have hstep : VarMapIter.next_ref (⟨VarIndex.new c, ⟨l⟩⟩ : VarMapIter T) =
        some ((VarIndex.new c, l.get ⟨c, hcl⟩),
          ⟨VarIndex.new (c + 1), ⟨l⟩⟩) := by
      simp [VarMapIter.next_ref, VarMap.len, VarIndex.get_new, VarIndex.inc_new,
        hcl]
    rw [hf, iterate_step_some _ _ _ _ _ hstep,
      List.drop_eq_getElem_cons hcl, List.enumFrom_cons, List.map_cons]
    congr 1
    exact ih (c + 1) k (by omega)

/-- Claim C3: running `into_index_iter()` (reverse once, then drain from the
back) to completion yields exactly the pairs `(0, v_0), ..., (n-1, v_{n-1})`
in ascending index order — naive ascending enumeration of the elements — and
the borrowing `index_iter()` produces those same pairs; surplus fuel `k`
yields nothing further. -/
theorem C3_into_index_iter_ascending (T : Type) (m : VarMap T) (k : Nat) :
    iterate VarMapIter.next_own (m.len + k) m.into_index_iter =
      m.vec.enum.map (fun p => (VarIndex.new p.1, p.2)) ∧
    iterate VarMapIter.next_ref (m.len + k) m.index_iter =
      m.vec.enum.map (fun p => (VarIndex.new p.1, p.2)) := by
  constructor
  · exact into_iterate T m.vec 0 k
  · exact ref_iterate T m.vec m.vec.length 0 k (by omega)

end Mylib
